import Mathlib

/-!
Verification of the ingestion-normalization pipeline and the multi-term fuzzy
search engine of `spreadsheet-fuzzy-searcher` (`src/App.tsx`).

The spreadsheet grid parser (SheetJS `XLSX`) and the fuzzy-matching primitive
(`Fuse.js`) are external libraries: the grid parser's entry points used by the
app (`decode_range`, `encode_cell`, `sheet_to_json`) are embedded from their
documented behaviour, and the fuzzy primitive is an opaque parameter
`search : String → List FuseRes` of the query engine, constrained only where a
claim needs a property the library guarantees (results are drawn from the
indexed records).

JavaScript numbers (Fuse scores) are modelled as exact rationals `ℚ`, and
JavaScript strings as Lean `String`s (lists of characters).
-/

namespace SpreadsheetSearch

/-- A scalar record value.  `sheet_to_json` is called with `raw: false`, so
every cell value arrives as a formatted string; the implicit `__rowNum__`
field re-attached by `parseSheetByName` is a (0-based) number. -/
inductive Value where
  | str (s : String)
  | num (n : Nat)
deriving DecidableEq, Repr

/-- A row record, `Record<string, unknown>`: a mapping from column name to
scalar value with insertion-ordered keys (`Object.keys` order). -/
abbrev Row := List (String × Value)

/-! ### `JSON.stringify` of a row record

`runSearch` identifies a row across the independently materialized per-term
result lists by `JSON.stringify(r.item)`.  We embed the stringification of an
insertion-ordered record with scalar values and prove it injective, so that
key equality is exactly structural value equality of the record contents. -/

/-- One character of `JSON.stringify`'s string encoding: `"` and `\` are
escaped with a backslash.  (`JSON.stringify` additionally escapes control
characters; that encoding never merges two distinct strings either, so it is
irrelevant to every property proved here.) -/
def escChar (c : Char) : List Char := if c = '"' ∨ c = '\\' then ['\\', c] else [c]

/-- Backslash-escaping of a whole string body. -/
def escStr : List Char → List Char
  | [] => []
  | c :: cs => escChar c ++ escStr cs

/-- Scans a JSON string body up to its closing quote, undoing `escStr`;
returns the decoded body and the remainder after the closing quote. -/
def unescStr : List Char → Option (List Char × List Char)
  | [] => none
  | '"' :: rest => some ([], rest)
  | '\\' :: c :: rest => (unescStr rest).map fun p => (c :: p.1, p.2)
  | c :: rest => (unescStr rest).map fun p => (c :: p.1, p.2)

theorem unescStr_escStr (a x : List Char) :
    unescStr (escStr a ++ '"' :: x) = some (a, x) := by
  induction a with
  | nil => simp [escStr, unescStr]
  | cons c cs ih =>
    by_cases hc : c = '"' ∨ c = '\\'
    · simp [escStr, escChar, hc, unescStr, ih]
    · push_neg at hc
      simp [escStr, escChar, hc.1, hc.2, unescStr, ih]

theorem escStr_quote_inj {a b x y : List Char}
    (h : escStr a ++ '"' :: x = escStr b ++ '"' :: y) : a = b ∧ x = y := by
  have := (unescStr_escStr a x).symm.trans ((congrArg unescStr h).trans (unescStr_escStr b y))
  simpa using this

/-- The decimal digit character for `d < 10`. -/
def digitChar (d : Nat) : Char := Char.ofNat (48 + d)

/-- Decimal digits of `n` (fuel-driven so that it reduces definitionally). -/
def natDigitsAux : Nat → Nat → List Char
  | 0, _ => []
  | fuel + 1, n =>
    if n < 10 then [digitChar n] else natDigitsAux fuel (n / 10) ++ [digitChar (n % 10)]

/-- Decimal representation of a natural number, as `JSON.stringify` prints
the `__rowNum__` field. -/
def natDigits (n : Nat) : List Char := natDigitsAux (n + 1) n

/-- Numeric value of a decimal digit character. -/
def digitVal (c : Char) : Nat := c.toNat - 48

/-- Value of a digit string. -/
def digitsToNat (ds : List Char) : Nat := ds.foldl (fun a c => a * 10 + digitVal c) 0

theorem digitVal_digitChar {d : Nat} (h : d < 10) : digitVal (digitChar d) = d := by
  interval_cases d <;> decide

theorem isDigit_digitChar {d : Nat} (h : d < 10) : (digitChar d).isDigit = true := by
  interval_cases d <;> decide

theorem digitChar_ne_quote {d : Nat} (h : d < 10) : digitChar d ≠ '"' := by
  interval_cases d <;> decide

theorem digitsToNat_append_digit (xs : List Char) (c : Char) :
    digitsToNat (xs ++ [c]) = 10 * digitsToNat xs + digitVal c := by
  simp [digitsToNat, List.foldl_append, Nat.mul_comm]

theorem natDigitsAux_spec {fuel n : Nat} (h : n < fuel) :
    digitsToNat (natDigitsAux fuel n) = n ∧ natDigitsAux fuel n ≠ [] ∧
      ∀ c ∈ natDigitsAux fuel n, c.isDigit = true := by
  induction fuel generalizing n with
  | zero => omega
  | succ fuel ih =>
    by_cases h10 : n < 10
    · refine ⟨?_, by simp [natDigitsAux, h10], ?_⟩
      · simp [natDigitsAux, h10, digitsToNat, digitVal_digitChar h10]
      · simp [natDigitsAux, h10, isDigit_digitChar h10]
    · have hdiv : n / 10 < fuel := by
        have : n / 10 < n := Nat.div_lt_self (by omega) (by omega)
        omega
      obtain ⟨hval, hne, hdig⟩ := ih hdiv
      have hmod : n % 10 < 10 := Nat.mod_lt _ (by omega)
      refine ⟨?_, by simp [natDigitsAux, h10], ?_⟩
      · simp [natDigitsAux, h10, digitsToNat_append_digit, hval,
          digitVal_digitChar hmod]
        omega
      · intro c hc
        simp only [natDigitsAux, if_neg h10, List.mem_append, List.mem_singleton] at hc
        rcases hc with hc | hc
        · exact hdig c hc
        · subst hc; exact isDigit_digitChar hmod

theorem digitsToNat_natDigits (n : Nat) : digitsToNat (natDigits n) = n :=
  (natDigitsAux_spec (Nat.lt_succ_self n)).1

theorem natDigits_ne_nil (n : Nat) : natDigits n ≠ [] :=
  (natDigitsAux_spec (Nat.lt_succ_self n)).2.1

theorem natDigits_all_digit (n : Nat) : ∀ c ∈ natDigits n, c.isDigit = true :=
  (natDigitsAux_spec (Nat.lt_succ_self n)).2.2

/-- `JSON.stringify` of one scalar value. -/
def stringifyValue : Value → List Char
  | .str s => '"' :: (escStr s.data ++ ['"'])
  | .num n => natDigits n

/-- `JSON.stringify` of one `"key":value` object member. -/
def stringifyEntry (e : String × Value) : List Char :=
  '"' :: (escStr e.1.data ++ '"' :: ':' :: stringifyValue e.2)

/-- The comma-separated member list of a stringified object. -/
def stringifyMembers : List (String × Value) → List Char
  | [] => []
  | [e] => stringifyEntry e
  | e :: es => stringifyEntry e ++ ',' :: stringifyMembers es

/-- `JSON.stringify(row)`: the string key used by `runSearch` to identify a
row record by its structural content across per-term result lists. -/
def stringifyRow (r : Row) : String := ⟨'{' :: (stringifyMembers r ++ ['}'])⟩

/-- Holds when a remainder list cannot extend a decimal literal: it is empty
or starts with a non-digit (in a stringified object it is `,` or `}`). -/
def headNotDigit : List Char → Prop
  | [] => True
  | c :: _ => c.isDigit = false

/-- Reads back one stringified scalar; inverse of `stringifyValue`. -/
def parseValue (l : List Char) : Option (Value × List Char) :=
  if l.head? = some '"' then
    (unescStr l.tail).map fun p => (Value.str ⟨p.1⟩, p.2)
  else
    let ds := l.takeWhile (·.isDigit)
    if ds = [] then none else some (.num (digitsToNat ds), l.dropWhile (·.isDigit))

theorem takeWhile_append_of_all {p : Char → Bool} {xs : List Char} (rest : List Char)
    (h : ∀ c ∈ xs, p c = true) :
    (xs ++ rest).takeWhile p = xs ++ rest.takeWhile p := by
  induction xs with
  | nil => simp
  | cons c cs ih =>
    simp only [List.cons_append, List.takeWhile_cons, h c (by simp)]
    simp [ih fun c hc => h c (by simp [hc])]

theorem dropWhile_append_of_all {p : Char → Bool} {xs : List Char} (rest : List Char)
    (h : ∀ c ∈ xs, p c = true) :
    (xs ++ rest).dropWhile p = rest.dropWhile p := by
  induction xs with
  | nil => simp
  | cons c cs ih =>
    simp only [List.cons_append, List.dropWhile_cons, h c (by simp)]
    simp [ih fun c hc => h c (by simp [hc])]

theorem takeWhile_eq_nil_of_headNotDigit {rest : List Char} (h : headNotDigit rest) :
    rest.takeWhile (·.isDigit) = [] := by
  cases rest with
  | nil => rfl
  | cons c cs => simp_all [headNotDigit, List.takeWhile_cons]

theorem dropWhile_eq_self_of_headNotDigit {rest : List Char} (h : headNotDigit rest) :
    rest.dropWhile (·.isDigit) = rest := by
  cases rest with
  | nil => rfl
  | cons c cs => simp_all [headNotDigit, List.dropWhile_cons]

theorem parseValue_stringifyValue (v : Value) {rest : List Char} (h : headNotDigit rest) :
    parseValue (stringifyValue v ++ rest) = some (v, rest) := by
  cases v with
  | str s =>
    show parseValue ('"' :: (escStr s.data ++ ['"']) ++ rest) = _
    have heq : '"' :: (escStr s.data ++ ['"']) ++ rest = '"' :: (escStr s.data ++ '"' :: rest) := by
      simp
    rw [heq]
    simp [parseValue, unescStr_escStr]
  | num n =>
    show parseValue (natDigits n ++ rest) = _
    obtain ⟨c, cs, hcons⟩ : ∃ c cs, natDigits n = c :: cs := by
      cases hd : natDigits n with
      | nil => exact absurd hd (natDigits_ne_nil n)
      | cons c cs => exact ⟨c, cs, rfl⟩
    have hcdig : c.isDigit = true := natDigits_all_digit n c (by rw [hcons]; simp)
    have hcq : c ≠ '"' := by
      intro hc; rw [hc] at hcdig; exact absurd hcdig (by decide)
    have hhead : (natDigits n ++ rest).head? ≠ some '"' := by
      rw [hcons]
      simpa using hcq
    have htake : (natDigits n ++ rest).takeWhile (·.isDigit) = natDigits n := by
      rw [takeWhile_append_of_all rest (natDigits_all_digit n),
        takeWhile_eq_nil_of_headNotDigit h, List.append_nil]
    have hdrop : (natDigits n ++ rest).dropWhile (·.isDigit) = rest := by
      rw [dropWhile_append_of_all rest (natDigits_all_digit n),
        dropWhile_eq_self_of_headNotDigit h]
    rw [parseValue, if_neg hhead]
    simp only [htake, hdrop]
    rw [if_neg (natDigits_ne_nil n), digitsToNat_natDigits]

theorem stringifyValue_append_inj {v₁ v₂ : Value} {t₁ t₂ : List Char}
    (h : stringifyValue v₁ ++ t₁ = stringifyValue v₂ ++ t₂)
    (h₁ : headNotDigit t₁) (h₂ : headNotDigit t₂) : v₁ = v₂ ∧ t₁ = t₂ := by
  have := (parseValue_stringifyValue v₁ h₁).symm.trans
    ((congrArg parseValue h).trans (parseValue_stringifyValue v₂ h₂))
  simpa using this

theorem stringifyEntry_append_inj {e₁ e₂ : String × Value} {t₁ t₂ : List Char}
    (h : stringifyEntry e₁ ++ t₁ = stringifyEntry e₂ ++ t₂)
    (h₁ : headNotDigit t₁) (h₂ : headNotDigit t₂) : e₁ = e₂ ∧ t₁ = t₂ := by
  obtain ⟨k₁, v₁⟩ := e₁
  obtain ⟨k₂, v₂⟩ := e₂
  simp only [stringifyEntry, List.cons_append, List.cons.injEq, true_and] at h
  rw [List.append_assoc, List.append_assoc] at h
  simp only [List.cons_append] at h
  obtain ⟨hk, hrest⟩ := escStr_quote_inj h
  simp only [List.cons.injEq, true_and] at hrest
  obtain ⟨hv, ht⟩ := stringifyValue_append_inj hrest h₁ h₂
  exact ⟨by simp [String.ext hk, hv], ht⟩

theorem stringifyMembers_close_inj :
    ∀ (r₁ : List (String × Value)) {r₂ : List (String × Value)} {x₁ x₂ : List Char},
      stringifyMembers r₁ ++ '}' :: x₁ = stringifyMembers r₂ ++ '}' :: x₂ →
      r₁ = r₂ ∧ x₁ = x₂ := by
  intro r₁
  induction r₁ with
  | nil =>
    intro r₂ x₁ x₂ h
    cases r₂ with
    | nil => simpa [stringifyMembers] using h
    | cons e es =>
      exfalso
      have hshape : ∃ t, stringifyMembers (e :: es) ++ '}' :: x₂ =
          stringifyEntry e ++ t := by
        cases es with
        | nil => exact ⟨'}' :: x₂, by simp [stringifyMembers]⟩
        | cons e' es' => exact ⟨',' :: (stringifyMembers (e' :: es') ++ '}' :: x₂),
            by simp [stringifyMembers]⟩
      obtain ⟨t, ht⟩ := hshape
      rw [ht] at h
      simp only [stringifyMembers, List.nil_append, stringifyEntry, List.cons_append,
        List.cons.injEq] at h
      exact absurd h.1 (by decide)
  | cons e₁ es₁ ih =>
    intro r₂ x₁ x₂ h
    cases r₂ with
    | nil =>
      exfalso
      have hshape : ∃ t, stringifyMembers (e₁ :: es₁) ++ '}' :: x₁ =
          stringifyEntry e₁ ++ t := by
        cases es₁ with
        | nil => exact ⟨'}' :: x₁, by simp [stringifyMembers]⟩
        | cons e' es' => exact ⟨',' :: (stringifyMembers (e' :: es') ++ '}' :: x₁),
            by simp [stringifyMembers]⟩
      obtain ⟨t, ht⟩ := hshape
      rw [ht] at h
      simp only [stringifyMembers, List.nil_append, stringifyEntry, List.cons_append,
        List.cons.injEq] at h
      exact absurd h.1 (by decide)
    | cons e₂ es₂ =>
      have shape : ∀ (e : String × Value) (es : List (String × Value)) (x : List Char),
          stringifyMembers (e :: es) ++ '}' :: x = stringifyEntry e ++
            (match es with
              | [] => '}' :: x
              | _ :: _ => ',' :: (stringifyMembers es ++ '}' :: x)) := by
        intro e es x
        cases es with
        | nil => simp [stringifyMembers]
        | cons e' es' => simp [stringifyMembers]
      rw [shape e₁ es₁ x₁, shape e₂ es₂ x₂] at h
      have hnd : ∀ (es : List (String × Value)) (x : List Char), headNotDigit
          (match es with
            | [] => '}' :: x
            | _ :: _ => ',' :: (stringifyMembers es ++ '}' :: x)) := by
        intro es x
        cases es with
        | nil => exact (by decide : ('}' : Char).isDigit = false)
        | cons _ _ => exact (by decide : (',' : Char).isDigit = false)
      obtain ⟨he, ht⟩ := stringifyEntry_append_inj h (hnd es₁ x₁) (hnd es₂ x₂)
      cases es₁ with
      | nil =>
        cases es₂ with
        | nil => exact ⟨by rw [he], by simpa using ht⟩
        | cons e' es' => simp at ht
      | cons e₁' es₁' =>
        cases es₂ with
        | nil => simp at ht
        | cons e₂' es₂' =>
          simp only [List.cons.injEq, true_and] at ht
          obtain ⟨hr, hx⟩ := ih ht
          exact ⟨by rw [he, hr], hx⟩

/-- The `JSON.stringify` row key is injective: two row records receive the
same key exactly when they are structurally equal. -/
theorem stringifyRow_injective : Function.Injective stringifyRow := by
  intro r₁ r₂ h
  have hd : '{' :: (stringifyMembers r₁ ++ ['}']) = '{' :: (stringifyMembers r₂ ++ ['}']) :=
    congrArg String.data h
  simp only [List.cons.injEq, true_and] at hd
  exact (stringifyMembers_close_inj r₁ hd).1

/-! ### Query engine (`runSearch` and friends, `src/App.tsx`) -/

/-- One `FuseResultMatch`: per-column match-position metadata attached by the
fuzzy primitive to a result (`key?: string`, `indices: [start, end][]`,
offsets inclusive). -/
structure FuseResultMatch where
  key : Option String
  indices : List (Nat × Nat)
deriving DecidableEq, Repr

/-- One raw result of the fuzzy primitive (`{ item, score?, matches? }`,
with `includeScore`/`includeMatches` enabled). -/
structure FuseRes where
  item : Row
  score : Option ℚ
  matches' : List FuseResultMatch
deriving DecidableEq, Repr

/-- `type SearchResult = { item: Row; matches?: FuseResultMatch[]; score?: number }`. -/
structure SearchResult where
  item : Row
  matches' : List FuseResultMatch
  score : Option ℚ
deriving DecidableEq, Repr

/-- JS `Map.get`: the value stored under `k`, if any. -/
def assocGet {κ α : Type} [DecidableEq κ] (m : List (κ × α)) (k : κ) : Option α :=
  (m.find? fun p => decide (p.1 = k)).map (·.2)

/-- JS `Map.has`. -/
def assocHas {κ α : Type} [DecidableEq κ] (m : List (κ × α)) (k : κ) : Bool :=
  m.any fun p => decide (p.1 = k)

/-- JS `Map.set`: overwrites in place when the key is present (keeping its
original insertion position), otherwise appends a new entry. -/
def assocSet {κ α : Type} [DecidableEq κ] (m : List (κ × α)) (k : κ) (v : α) :
    List (κ × α) :=
  if assocHas m k then m.map fun p => if p.1 = k then (k, v) else p
  else m ++ [(k, v)]

/-- JS `[...m.keys()]`: keys in insertion order. -/
def assocKeys {κ α : Type} (m : List (κ × α)) : List κ := m.map Prod.fst

/-- Accumulating whitespace splitter; `acc` holds the reversed characters of
the in-progress token. -/
def splitWsAux : List Char → List Char → List String
  | [], acc => if acc = [] then [] else [⟨acc.reverse⟩]
  | c :: cs, acc =>
    if c.isWhitespace then
      if acc = [] then splitWsAux cs [] else ⟨acc.reverse⟩ :: splitWsAux cs []
    else splitWsAux cs (c :: acc)

/-- `q.split(/\s+/).filter(Boolean)`: the whitespace-separated terms of a
query, dropping empty tokens (the maximal non-whitespace runs of `q`). -/
def splitTerms (q : String) : List String := splitWsAux q.data []

/-- The identity mapping used by `runSearch` when the query is empty (or
yields no terms) and by `parseSheetByName` for the initial result list:
`data.map((item) => ({ item, matches: [] }))`.  Note: no `score` field is
set on these results. -/
def identityResults (data : List Row) : List SearchResult :=
  data.map fun item => { item := item, matches' := [], score := none }

/-- The stored per-term entry of `runSearch`:
`{ item: r.item, matches: r.matches, score: r.score ?? 0 }`. -/
def toSR (r : FuseRes) : SearchResult :=
  { item := r.item, matches' := r.matches', score := some (r.score.getD 0) }

/-- One per-term map of `runSearch`: each raw Fuse result is stored under the
key `JSON.stringify(r.item)`. -/
def buildMap (list : List FuseRes) : List (String × SearchResult) :=
  list.foldl (fun m r => assocSet m (stringifyRow r.item) (toSR r)) []

/-- The per-term maps for the term list (`terms.map((t) => fuse.search(t))`
followed by the map construction). -/
def termMapsOf (search : String → List FuseRes) (terms : List String) :
    List (List (String × SearchResult)) :=
  terms.map fun t => buildMap (search t)

/-- `[...termMaps[0].keys()].filter((k) => termMaps.every((m) => m.has(k)))`:
keys present in every per-term map, in the first map's insertion order. -/
def commonKeysOf (termMaps : List (List (String × SearchResult))) : List String :=
  match termMaps with
  | [] => []
  | m0 :: _ => (assocKeys m0).filter fun k => termMaps.all fun m => assocHas m k

/-- The merged result for one key: the first contributor's item, the
concatenation of every contributor's matches, and the mean of the per-term
scores.  The code reads the per-term entries with a non-null assertion
(`termMaps.map((m) => m.get(k)!)`); on a common key every map contains the
key, so the `filterMap` below collects exactly those entries
(`mergeAt_forall₂` below makes this precise). -/
def mergeAt (termMaps : List (List (String × SearchResult))) (k : String) :
    Option SearchResult :=
  match termMaps.filterMap (fun m => assocGet m k) with
  | [] => none
  | r0 :: rs =>
    some { item := r0.item
           matches' := (r0 :: rs).foldr (fun r acc => r.matches' ++ acc) []
           score := some ((((r0 :: rs).map fun r => r.score.getD 0).sum) /
             (((r0 :: rs).length : ℚ))) }

/-- The pre-sort merged result list of `runSearch`. -/
def mergedOf (termMaps : List (List (String × SearchResult))) : List SearchResult :=
  (commonKeysOf termMaps).filterMap (mergeAt termMaps)

/-- The order of the final comparator `(a, b) => (a.score ?? 0) - (b.score ?? 0)`. -/
def resultLE (a b : SearchResult) : Prop := a.score.getD 0 ≤ b.score.getD 0

instance : DecidableRel resultLE := fun a b =>
  inferInstanceAs (Decidable (a.score.getD 0 ≤ b.score.getD 0))

instance : IsTotal SearchResult resultLE := ⟨fun a b => le_total (a.score.getD 0) (b.score.getD 0)⟩

instance : IsTrans SearchResult resultLE := ⟨fun _ _ _ hab hbc => le_trans hab hbc⟩

/-- `merged.sort((a, b) => (a.score ?? 0) - (b.score ?? 0))`: JS `sort` is
guaranteed stable, and every stable sort w.r.t. this total preorder produces
the same list, embedded here as an insertion sort. -/
def sortResults (l : List SearchResult) : List SearchResult :=
  List.insertionSort resultLE l

/-- `runSearch` (`src/App.tsx`, lines 258–298): whitespace-split multi-term
AND search.  The fuzzy primitive is the parameter `search`; in the app,
`fuse` is `null` exactly when the record set is empty
(`if (!data.length) return null` in the index construction), so the `!fuse`
disjunct of the guard is subsumed by `!data.length`. -/
def runSearch (data : List Row) (search : String → List FuseRes) (q : String) :
    List SearchResult :=
  if q = "" ∨ data = [] then identityResults data
  else
    match splitTerms q with
    | [] => identityResults data
    | t :: ts => sortResults (mergedOf (termMapsOf search (t :: ts)))

/-! ### Association-map lemmas -/

@[simp] theorem assocGet_nil {κ α : Type} [DecidableEq κ] (k : κ) :
    assocGet ([] : List (κ × α)) k = none := rfl

theorem assocGet_cons {κ α : Type} [DecidableEq κ] (p : κ × α) (m : List (κ × α)) (k : κ) :
    assocGet (p :: m) k = if p.1 = k then some p.2 else assocGet m k := by
  by_cases h : p.1 = k
  · simp [assocGet, List.find?_cons_of_pos, h]
  · simp [assocGet, List.find?_cons_of_neg, h]

theorem assocHas_iff_isSome {κ α : Type} [DecidableEq κ] (m : List (κ × α)) (k : κ) :
    assocHas m k = true ↔ (assocGet m k).isSome = true := by
  induction m with
  | nil => simp [assocHas]
  | cons p m ih =>
    rw [assocGet_cons]
    by_cases h : p.1 = k
    · simp [assocHas, h]
    · simp only [assocHas, List.any_cons] at ih ⊢
      simp [h, ih]

theorem assocHas_iff_mem_keys {κ α : Type} [DecidableEq κ] (m : List (κ × α)) (k : κ) :
    assocHas m k = true ↔ k ∈ assocKeys m := by
  rw [assocHas, List.any_eq_true, assocKeys]
  constructor
  · rintro ⟨p, hp, hk⟩
    exact List.mem_map.mpr ⟨p, hp, by simpa using hk⟩
  · rintro hk
    obtain ⟨p, hp, hk⟩ := List.mem_map.mp hk
    exact ⟨p, hp, by simpa using hk⟩

theorem assocGet_map_update {κ α : Type} [DecidableEq κ] (m : List (κ × α)) (k k' : κ) (v : α) :
    assocGet (m.map fun p => if p.1 = k then (k, v) else p) k' =
      if k' = k then (assocGet m k).map fun _ => v else assocGet m k' := by
  induction m with
  | nil => simp
  | cons p m ih =>
    simp only [List.map_cons]
    by_cases hpk : p.1 = k
    · by_cases hk' : k' = k
      · subst hk'
        simp [assocGet_cons, hpk]
      · rw [if_pos hpk, assocGet_cons]
        have hkk' : ¬((k, v).1 = k') := fun h => hk' h.symm
        rw [if_neg hkk', ih, if_neg hk', if_neg hk', assocGet_cons,
          if_neg (fun h : p.1 = k' => hk' (hpk.symm.trans h).symm)]
    · rw [if_neg hpk, assocGet_cons]
      by_cases hpk' : p.1 = k'
      · rw [if_pos hpk']
        have hk' : ¬(k' = k) := fun h => hpk (hpk'.trans h)
        rw [if_neg hk', assocGet_cons, if_pos hpk']
      · rw [if_neg hpk', ih]
        by_cases hk' : k' = k
        · rw [if_pos hk', if_pos hk', assocGet_cons, if_neg hpk]
        · rw [if_neg hk', if_neg hk', assocGet_cons, if_neg hpk']

theorem assocGet_append_single {κ α : Type} [DecidableEq κ] (m : List (κ × α)) (k k' : κ) (v : α) :
    assocGet (m ++ [(k, v)]) k' =
      if (assocGet m k').isSome then assocGet m k'
      else if k' = k then some v else none := by
  induction m with
  | nil =>
    by_cases h : k' = k
    · simp [assocGet_cons, h]
    · simp [assocGet_cons, h, Ne.symm h]
  | cons p m ih =>
    simp only [List.cons_append]
    rw [assocGet_cons, assocGet_cons]
    by_cases hpk' : p.1 = k'
    · simp [hpk']
    · rw [if_neg hpk', if_neg hpk', ih]

theorem assocGet_assocSet {κ α : Type} [DecidableEq κ] (m : List (κ × α)) (k k' : κ) (v : α) :
    assocGet (assocSet m k v) k' = if k' = k then some v else assocGet m k' := by
  rw [assocSet]
  by_cases hhas : assocHas m k
  · rw [if_pos hhas, assocGet_map_update]
    by_cases hk' : k' = k
    · rw [if_pos hk', if_pos hk']
      obtain ⟨w, hw⟩ := Option.isSome_iff_exists.mp ((assocHas_iff_isSome m k).mp hhas)
      rw [hw]; rfl
    · rw [if_neg hk', if_neg hk']
  · rw [if_neg hhas, assocGet_append_single]
    have hnone : assocGet m k = none := by
      cases ho : assocGet m k with
      | none => rfl
      | some w => exact absurd ((assocHas_iff_isSome m k).mpr (by simp [ho])) hhas
    by_cases hk' : k' = k
    · subst hk'
      rw [if_pos rfl, hnone]
      simp
    · rw [if_neg hk']
      cases ho : assocGet m k' with
      | none => simp [ho, hk']
      | some w => simp [ho, hk']

theorem assocKeys_assocSet {κ α : Type} [DecidableEq κ] (m : List (κ × α)) (k : κ) (v : α) :
    assocKeys (assocSet m k v) =
      if assocHas m k then assocKeys m else assocKeys m ++ [k] := by
  rw [assocSet]
  by_cases hhas : assocHas m k
  · rw [if_pos hhas, if_pos hhas, assocKeys, assocKeys, List.map_map]
    refine List.map_congr_left fun p _ => ?_
    by_cases hp : p.1 = k <;> simp [hp]
  · rw [if_neg hhas, if_neg hhas, assocKeys, assocKeys, List.map_append]
    rfl

theorem nodup_assocKeys_assocSet {κ α : Type} [DecidableEq κ] (m : List (κ × α)) (k : κ) (v : α)
    (h : (assocKeys m).Nodup) : (assocKeys (assocSet m k v)).Nodup := by
  rw [assocKeys_assocSet]
  by_cases hhas : assocHas m k
  · rwa [if_pos hhas]
  · rw [if_neg hhas]
    have hk : k ∉ assocKeys m := fun hmem => hhas ((assocHas_iff_mem_keys m k).mpr hmem)
    simp [List.nodup_append, h, hk]

theorem mem_keys_assocSet_iff {κ α : Type} [DecidableEq κ] (m : List (κ × α)) (k k' : κ) (v : α) :
    k' ∈ assocKeys (assocSet m k v) ↔ k' ∈ assocKeys m ∨ k' = k := by
  rw [assocKeys_assocSet]
  by_cases hhas : assocHas m k
  · rw [if_pos hhas]
    constructor
    · exact Or.inl
    · rintro (h | rfl)
      · exact h
      · exact (assocHas_iff_mem_keys m k').mp hhas
  · rw [if_neg hhas]
    simp

/-! ### `buildMap` and `mergeAt` lemmas -/

theorem foldl_assocSet_origin (l : List FuseRes) :
    ∀ (m : List (String × SearchResult)) (k : String) (res : SearchResult),
      assocGet (l.foldl (fun m r => assocSet m (stringifyRow r.item) (toSR r)) m) k = some res →
      assocGet m k = some res ∨ ∃ fr ∈ l, res = toSR fr ∧ stringifyRow fr.item = k := by
  induction l with
  | nil => exact fun m k res h => Or.inl h
  | cons fr l ih =>
    intro m k res h
    rcases ih _ k res h with h' | h'
    · rw [assocGet_assocSet] at h'
      by_cases hk : k = stringifyRow fr.item
      · rw [if_pos hk] at h'
        exact Or.inr ⟨fr, by simp, (Option.some.inj h').symm, hk.symm⟩
      · rw [if_neg hk] at h'
        exact Or.inl h'
    · obtain ⟨fr', hfr', he, hkey⟩ := h'
      exact Or.inr ⟨fr', List.mem_cons_of_mem _ hfr', he, hkey⟩

theorem foldl_assocSet_has (l : List FuseRes) :
    ∀ (m : List (String × SearchResult)) (k : String),
      (assocHas m k = true ∨ ∃ fr ∈ l, stringifyRow fr.item = k) →
      assocHas (l.foldl (fun m r => assocSet m (stringifyRow r.item) (toSR r)) m) k = true := by
  induction l with
  | nil =>
    intro m k h
    rcases h with h | ⟨fr, hfr, -⟩
    · exact h
    · exact absurd hfr (List.not_mem_nil fr)
  | cons fr l ih =>
    intro m k h
    apply ih
    rcases h with h | ⟨fr', hfr', hkey⟩
    · left
      rw [assocHas_iff_isSome, assocGet_assocSet]
      by_cases hk : k = stringifyRow fr.item
      · rw [if_pos hk]; rfl
      · rw [if_neg hk, ← assocHas_iff_isSome]; exact h
    · rcases List.mem_cons.mp hfr' with rfl | hmem
      · left
        rw [assocHas_iff_isSome, assocGet_assocSet, if_pos hkey.symm]
        rfl
      · exact Or.inr ⟨fr', hmem, hkey⟩

theorem buildMap_origin {l : List FuseRes} {k : String} {res : SearchResult}
    (h : assocGet (buildMap l) k = some res) :
    ∃ fr ∈ l, res = toSR fr ∧ stringifyRow fr.item = k := by
  rcases foldl_assocSet_origin l [] k res h with h0 | h0
  · simp at h0
  · exact h0

theorem buildMap_has_of_mem {l : List FuseRes} {fr : FuseRes} (h : fr ∈ l) :
    assocHas (buildMap l) (stringifyRow fr.item) = true :=
  foldl_assocSet_has l [] _ (Or.inr ⟨fr, h, rfl⟩)

theorem nodup_assocKeys_buildMap (l : List FuseRes) : (assocKeys (buildMap l)).Nodup := by
  suffices h : ∀ (m : List (String × SearchResult)), (assocKeys m).Nodup →
      (assocKeys (l.foldl (fun m r => assocSet m (stringifyRow r.item) (toSR r)) m)).Nodup by
    exact h [] (by simp [assocKeys])
  induction l with
  | nil => exact fun m hm => hm
  | cons fr l ih => exact fun m hm => ih _ (nodup_assocKeys_assocSet _ _ _ hm)

theorem forall₂_filterMap_get {tms : List (List (String × SearchResult))} {k : String}
    (h : ∀ m ∈ tms, assocHas m k = true) :
    List.Forall₂ (fun m r => assocGet m k = some r) tms (tms.filterMap fun m => assocGet m k) := by
  induction tms with
  | nil => exact List.Forall₂.nil
  | cons m tms ih =>
    obtain ⟨v, hv⟩ := Option.isSome_iff_exists.mp
      ((assocHas_iff_isSome _ _).mp (h m (List.mem_cons_self _ _)))
    rw [List.filterMap_cons, hv]
    exact List.Forall₂.cons hv (ih fun m' hm' => h m' (List.mem_cons_of_mem _ hm'))

theorem map_eq_map_of_forall₂ {α β γ : Type} {R : α → β → Prop} {f : α → γ} {g : β → γ}
    {as : List α} {bs : List β} (h : List.Forall₂ R as bs)
    (hfg : ∀ a b, R a b → f a = g b) : as.map f = bs.map g := by
  induction h with
  | nil => rfl
  | cons hab _ ih => simp [hfg _ _ hab, ih]

theorem mem_commonKeysOf {m0 : List (String × SearchResult)}
    {rest : List (List (String × SearchResult))} {k : String} :
    k ∈ commonKeysOf (m0 :: rest) ↔
      k ∈ assocKeys m0 ∧ ∀ m ∈ m0 :: rest, assocHas m k = true := by
  simp [commonKeysOf, List.mem_filter, List.all_eq_true]

theorem mergeAt_cons {m0 : List (String × SearchResult)}
    {rest : List (List (String × SearchResult))} {k : String} {r0 : SearchResult}
    (h0 : assocGet m0 k = some r0)
    (hall : ∀ m ∈ rest, assocHas m k = true) :
    ∃ res, mergeAt (m0 :: rest) k = some res ∧ res.item = r0.item ∧
      res.score = some
        ((((m0 :: rest).map fun m =>
            ((assocGet m k).map fun sr => sr.score.getD 0).getD 0).sum) /
          (((m0 :: rest).length : ℚ))) := by
  have hallc : ∀ m ∈ m0 :: rest, assocHas m k = true := by
    intro m hm
    rcases List.mem_cons.mp hm with rfl | hm
    · rw [assocHas_iff_isSome, h0]; rfl
    · exact hall m hm
  have hf2 := forall₂_filterMap_get hallc
  have hlen : (m0 :: rest).length = ((m0 :: rest).filterMap fun m => assocGet m k).length :=
    hf2.length_eq
  have hmap : ((m0 :: rest).map fun m =>
      ((assocGet m k).map fun sr => sr.score.getD 0).getD 0) =
      ((m0 :: rest).filterMap fun m => assocGet m k).map fun r => r.score.getD 0 :=
    map_eq_map_of_forall₂ hf2 fun m r hr => by rw [hr]; rfl
  have hcons : (m0 :: rest).filterMap (fun m => assocGet m k) =
      r0 :: rest.filterMap fun m => assocGet m k := by
    rw [List.filterMap_cons, h0]
  refine ⟨{ item := r0.item
            matches' := (r0 :: rest.filterMap fun m => assocGet m k).foldr
              (fun r acc => r.matches' ++ acc) []
            score := some
              ((((r0 :: rest.filterMap fun m => assocGet m k).map
                  fun r => r.score.getD 0).sum) /
                (((r0 :: rest.filterMap fun m => assocGet m k).length : ℚ))) },
    ?_, rfl, ?_⟩
  · rw [mergeAt, hcons]
  · rw [hmap, hcons, hlen, hcons]

theorem mem_sortResults {l : List SearchResult} {res : SearchResult} :
    res ∈ sortResults l ↔ res ∈ l :=
  (List.perm_insertionSort resultLE l).mem_iff

theorem splitTerms_nil_of_empty : splitTerms "" = [] := rfl

/-! ### Claim C1: AND-intersection semantics -/

/-- **C1**.  For every record set, fuzzy primitive (whose results are drawn
from the record set, as Fuse.js guarantees), and query that splits into one
or more terms, a row record appears among the items of `runSearch`'s final
results if and only if every term's independent single-term search matched a
result with that row as its item — equality of rows being structural value
equality of the record contents (the intersection is keyed by the injective
`stringifyRow`), not object identity. -/
theorem runSearch_and_intersection
    (data : List Row) (search : String → List FuseRes) (q : String)
    (hterms : splitTerms q ≠ [])
    (hsearch : ∀ t : String, ∀ fr ∈ search t, fr.item ∈ data) (r : Row) :
    (∃ res ∈ runSearch data search q, res.item = r) ↔
      ∀ t ∈ splitTerms q, ∃ fr ∈ search t, fr.item = r := by
  obtain ⟨t0, ts, hts⟩ : ∃ t0 ts, splitTerms q = t0 :: ts := by
    cases h : splitTerms q with
    | nil => exact absurd h hterms
    | cons a l => exact ⟨a, l, rfl⟩
  have hq : q ≠ "" := by
    intro h
    rw [h] at hts
    exact List.noConfusion (splitTerms_nil_of_empty.symm.trans hts)
  by_cases hdata : data = []
  · subst hdata
    constructor
    · rintro ⟨res, hres, -⟩
      rw [runSearch, if_pos (Or.inr rfl)] at hres
      simp [identityResults] at hres
    · intro hall
      obtain ⟨fr, hfr, -⟩ := hall t0 (by rw [hts]; exact List.mem_cons_self _ _)
      exact absurd (hsearch t0 fr hfr) (List.not_mem_nil _)
  · have hrun : runSearch data search q =
        sortResults (mergedOf (termMapsOf search (t0 :: ts))) := by
      rw [runSearch, if_neg (by simp [hq, hdata]), hts]
    have htms_cons : termMapsOf search (t0 :: ts) =
        buildMap (search t0) :: termMapsOf search ts := rfl
    constructor
    · rintro ⟨res, hres, rfl⟩
      rw [hrun, mem_sortResults] at hres
      obtain ⟨k, hk, hmerge⟩ := List.mem_filterMap.mp hres
      rw [htms_cons] at hk hmerge
      obtain ⟨hk0, hkall⟩ := mem_commonKeysOf.mp hk
      obtain ⟨r0, hr0⟩ := Option.isSome_iff_exists.mp
        ((assocHas_iff_isSome _ _).mp (hkall _ (List.mem_cons_self _ _)))
      obtain ⟨resx, hresx, hitem, -⟩ := mergeAt_cons hr0
        fun m hm => hkall m (List.mem_cons_of_mem _ hm)
      have hres_eq : res = resx := Option.some.inj (hmerge.symm.trans hresx)
      obtain ⟨fr0, hfr0, hfr0eq, hfr0key⟩ := buildMap_origin hr0
      have hreskey : stringifyRow res.item = k := by
        rw [hres_eq, hitem, hfr0eq]
        exact hfr0key
      intro t ht
      have hmt : buildMap (search t) ∈ termMapsOf search (t0 :: ts) :=
        List.mem_map_of_mem _ (hts ▸ ht)
      rw [htms_cons] at hmt
      obtain ⟨rt, hrt⟩ := Option.isSome_iff_exists.mp
        ((assocHas_iff_isSome _ _).mp (hkall _ hmt))
      obtain ⟨fr, hfr, -, hfrkey⟩ := buildMap_origin hrt
      exact ⟨fr, hfr, stringifyRow_injective (hfrkey.trans hreskey.symm)⟩
    · intro hall
      have hhas : ∀ m ∈ termMapsOf search (t0 :: ts), assocHas m (stringifyRow r) = true := by
        intro m hm
        obtain ⟨t, ht, he⟩ := List.mem_map.mp hm
        obtain ⟨fr, hfr, hfritem⟩ := hall t (hts ▸ ht)
        have := buildMap_has_of_mem hfr
        rw [hfritem] at this
        rw [← he]
        exact this
      obtain ⟨r0, hr0⟩ := Option.isSome_iff_exists.mp
        ((assocHas_iff_isSome _ _).mp (hhas _ (htms_cons ▸ List.mem_cons_self _ _)))
      obtain ⟨res, hres_eq, hitem, -⟩ := mergeAt_cons hr0
        fun m hm => hhas m (htms_cons ▸ List.mem_cons_of_mem _ hm)
      have hk_mem : stringifyRow r ∈ commonKeysOf (termMapsOf search (t0 :: ts)) := by
        rw [htms_cons]
        exact mem_commonKeysOf.mpr
          ⟨(assocHas_iff_mem_keys _ _).mp (hhas _ (htms_cons ▸ List.mem_cons_self _ _)),
            htms_cons ▸ hhas⟩
      refine ⟨res, ?_, ?_⟩
      · rw [hrun, mem_sortResults]
        exact List.mem_filterMap.mpr ⟨stringifyRow r, hk_mem, htms_cons ▸ hres_eq⟩
      · obtain ⟨fr0, hfr0, hfr0eq, hfr0key⟩ := buildMap_origin hr0
        have hr0item : r0.item = fr0.item := by rw [hfr0eq]; rfl
        rw [hitem, hr0item]
        exact stringifyRow_injective hfr0key

/-- Witness for C1 at a concrete input: record set of two rows, query
`"a b"`, a fuzzy primitive matching both rows on `"a"` but only the first on
`"b"`; the first row is AND-matched and the second is not. -/
theorem runSearch_and_intersection_witness :
    (splitTerms "a b" ≠ [] ∧
      (∀ t : String, ∀ fr ∈ (fun t : String =>
        if t = "a" then
          [⟨[("N", Value.str "x")], some (1/10), []⟩,
           (⟨[("N", Value.str "y")], some (2/10), []⟩ : FuseRes)]
        else [⟨[("N", Value.str "x")], some (3/10), []⟩]) t,
        fr.item ∈ [[("N", Value.str "x")], [("N", Value.str "y")]])) ∧
    ((∃ res ∈ runSearch [[("N", Value.str "x")], [("N", Value.str "y")]]
        (fun t : String =>
          if t = "a" then
            [⟨[("N", Value.str "x")], some (1/10), []⟩,
             (⟨[("N", Value.str "y")], some (2/10), []⟩ : FuseRes)]
          else [⟨[("N", Value.str "x")], some (3/10), []⟩]) "a b",
        res.item = [("N", Value.str "x")]) ↔
      ∀ t ∈ splitTerms "a b", ∃ fr ∈ (fun t : String =>
        if t = "a" then
          [⟨[("N", Value.str "x")], some (1/10), []⟩,
           (⟨[("N", Value.str "y")], some (2/10), []⟩ : FuseRes)]
        else [⟨[("N", Value.str "x")], some (3/10), []⟩]) t,
        fr.item = [("N", Value.str "x")]) := by
  refine ⟨⟨by decide, ?_⟩, runSearch_and_intersection _ _ _ (by decide) ?_ _⟩
  · intro t fr hfr
    by_cases ht : t = "a"
    · simp [ht] at hfr
      rcases hfr with h | h <;> simp [h]
    · simp [ht] at hfr
      simp [hfr]
  · intro t fr hfr
    by_cases ht : t = "a"
    · simp [ht] at hfr
      rcases hfr with h | h <;> simp [h]
    · simp [ht] at hfr
      simp [hfr]

/-! ### Claim C9: duplicate rows collapse -/

/-- **C9**.  The per-term intersection keys rows by their stringified
structural content, so the item lists of a term-query's final results are
duplicate-free: any row record — in particular a duplicated one that several
raw results carry — occurs at most once, collapsing to a single
`SearchResult` instead of appearing twice. -/
theorem runSearch_duplicate_collapse
    (data : List Row) (search : String → List FuseRes) (q : String)
    (hterms : splitTerms q ≠ []) :
    ((runSearch data search q).map (·.item)).Nodup := by
  obtain ⟨t0, ts, hts⟩ : ∃ t0 ts, splitTerms q = t0 :: ts := by
    cases h : splitTerms q with
    | nil => exact absurd h hterms
    | cons a l => exact ⟨a, l, rfl⟩
  have hq : q ≠ "" := by
    intro h
    rw [h] at hts
    exact List.noConfusion (splitTerms_nil_of_empty.symm.trans hts)
  by_cases hdata : data = []
  · subst hdata
    rw [runSearch, if_pos (Or.inr rfl)]
    simp [identityResults]
  · have hrun : runSearch data search q =
        sortResults (mergedOf (termMapsOf search (t0 :: ts))) := by
      rw [runSearch, if_neg (by simp [hq, hdata]), hts]
    have htms_cons2 : termMapsOf search (t0 :: ts) =
        buildMap (search t0) :: termMapsOf search ts := rfl
    have hpt : ∀ k ∈ commonKeysOf (termMapsOf search (t0 :: ts)),
        (mergeAt (termMapsOf search (t0 :: ts)) k).map (fun res => stringifyRow res.item) =
          some k := by
      intro k hk
      rw [htms_cons2] at hk
      obtain ⟨hk0, hkall⟩ := mem_commonKeysOf.mp hk
      obtain ⟨r0, hr0⟩ := Option.isSome_iff_exists.mp
        ((assocHas_iff_isSome _ _).mp (hkall _ (List.mem_cons_self _ _)))
      obtain ⟨resx, hresx, hitem, -⟩ := mergeAt_cons hr0
        fun m hm => hkall m (List.mem_cons_of_mem _ hm)
      obtain ⟨fr0, hfr0, hfr0eq, hfr0key⟩ := buildMap_origin hr0
      rw [htms_cons2, hresx]
      show some (stringifyRow resx.item) = some k
      rw [hitem, show r0.item = fr0.item from by rw [hfr0eq]; rfl, hfr0key]
    have hkeysmap : (mergedOf (termMapsOf search (t0 :: ts))).map
        (fun res => stringifyRow res.item) = commonKeysOf (termMapsOf search (t0 :: ts)) := by
      rw [mergedOf, List.map_filterMap, List.filterMap_congr hpt]
      exact List.filterMap_eq_map id ▸ List.map_id _
    have hnodup_keys : (commonKeysOf (termMapsOf search (t0 :: ts))).Nodup := by
      rw [htms_cons2, commonKeysOf]
      exact List.Nodup.filter _ (nodup_assocKeys_buildMap (search t0))
    have hnodup_items : ((mergedOf (termMapsOf search (t0 :: ts))).map (·.item)).Nodup := by
      apply List.Nodup.of_map stringifyRow
      rw [List.map_map]
      exact hkeysmap ▸ hnodup_keys
    have hperm : ((runSearch data search q).map (·.item)).Perm
        ((mergedOf (termMapsOf search (t0 :: ts))).map (·.item)) := by
      rw [hrun]
      exact (List.perm_insertionSort resultLE _).map _
    exact hperm.nodup_iff.mpr hnodup_items

/-- Witness for C9 at a concrete input: the record set contains the same row
twice, the fuzzy primitive returns both occurrences for the single term of
`"a"`, and the final result items are still duplicate-free. -/
theorem runSearch_duplicate_collapse_witness :
    splitTerms "a" ≠ [] ∧
    ((runSearch [[("N", Value.str "x")], [("N", Value.str "x")]]
        (fun _ => [⟨[("N", Value.str "x")], some (1/10), []⟩,
          (⟨[("N", Value.str "x")], some (1/10), []⟩ : FuseRes)]) "a").map
        (·.item)).Nodup :=
  ⟨by decide, runSearch_duplicate_collapse _ _ _ (by decide)⟩

/-! ### Claim C3: combined score is the arithmetic mean of per-term scores -/

/-- The score a term's search assigned to a row in its per-term map (the
`score: r.score ?? 0` stored under the row's stringified key; `0` when the
term did not match the row, a case that cannot arise for a final result). -/
def termScore (list : List FuseRes) (r : Row) : ℚ :=
  ((assocGet (buildMap list) (stringifyRow r)).map fun sr => sr.score.getD 0).getD 0

/-- **C3**.  Every result of a term-query carries as its combined score the
arithmetic mean of the scores assigned to its row by the independent
per-term searches. -/
theorem runSearch_score_mean
    (data : List Row) (search : String → List FuseRes) (q : String)
    (hterms : splitTerms q ≠ []) :
    ∀ res ∈ runSearch data search q,
      res.score = some
        ((((splitTerms q).map fun t => termScore (search t) res.item).sum) /
          (((splitTerms q).length : ℚ))) := by
  obtain ⟨t0, ts, hts⟩ : ∃ t0 ts, splitTerms q = t0 :: ts := by
    cases h : splitTerms q with
    | nil => exact absurd h hterms
    | cons a l => exact ⟨a, l, rfl⟩
  have hq : q ≠ "" := by
    intro h
    rw [h] at hts
    exact List.noConfusion (splitTerms_nil_of_empty.symm.trans hts)
  by_cases hdata : data = []
  · subst hdata
    rw [runSearch, if_pos (Or.inr rfl)]
    simp [identityResults]
  · have hrun : runSearch data search q =
        sortResults (mergedOf (termMapsOf search (t0 :: ts))) := by
      rw [runSearch, if_neg (by simp [hq, hdata]), hts]
    have htms_cons : termMapsOf search (t0 :: ts) =
        buildMap (search t0) :: termMapsOf search ts := rfl
    intro res hres
    rw [hrun, mem_sortResults] at hres
    obtain ⟨k, hk, hmerge⟩ := List.mem_filterMap.mp hres
    rw [htms_cons] at hk hmerge
    obtain ⟨hk0, hkall⟩ := mem_commonKeysOf.mp hk
    obtain ⟨r0, hr0⟩ := Option.isSome_iff_exists.mp
      ((assocHas_iff_isSome _ _).mp (hkall _ (List.mem_cons_self _ _)))
    obtain ⟨resx, hresx, hitem, hscore⟩ := mergeAt_cons hr0
      fun m hm => hkall m (List.mem_cons_of_mem _ hm)
    have hres_eq : res = resx := Option.some.inj (hmerge.symm.trans hresx)
    obtain ⟨fr0, hfr0, hfr0eq, hfr0key⟩ := buildMap_origin hr0
    have hreskey : stringifyRow res.item = k := by
      rw [hres_eq, hitem, show r0.item = fr0.item from by rw [hfr0eq]; rfl]
      exact hfr0key
    have hmapeq : ((buildMap (search t0) :: termMapsOf search ts).map fun m =>
        ((assocGet m k).map fun sr => sr.score.getD 0).getD 0) =
        ((t0 :: ts).map fun t => termScore (search t) res.item) := by
      rw [← htms_cons, termMapsOf, List.map_map]
      refine List.map_congr_left fun t _ => ?_
      simp only [Function.comp_apply, termScore, hreskey]
    have hleneq : (buildMap (search t0) :: termMapsOf search ts).length =
        (t0 :: ts).length := by
      rw [← htms_cons, termMapsOf, List.length_map]
    rw [hres_eq, hts, hscore, hmapeq, hleneq]
    rw [hres_eq]

/-- Witness for C3 at a concrete input: one row, two terms scoring it `1/10`
and `3/10`; the theorem yields that the combined score is their mean. -/
theorem runSearch_score_mean_witness :
    splitTerms "a b" ≠ [] ∧
    ∀ res ∈ runSearch [[("N", Value.str "x")]]
        (fun t => if t = "a" then [⟨[("N", Value.str "x")], some (1/10), []⟩]
          else [(⟨[("N", Value.str "x")], some (3/10), []⟩ : FuseRes)]) "a b",
      res.score = some
        ((((splitTerms "a b").map fun t => termScore
            ((fun t => if t = "a" then [⟨[("N", Value.str "x")], some (1/10), []⟩]
              else [(⟨[("N", Value.str "x")], some (3/10), []⟩ : FuseRes)]) t)
            res.item).sum) /
          (((splitTerms "a b").length : ℚ))) :=
  ⟨by decide, runSearch_score_mean _ _ _ (by decide)⟩

/-! ### Claim C2: empty query, no terms, or empty record set -/

/-- **C2** (amended).  On an empty query string, a query whose whitespace
split yields no terms, or an empty record set, `runSearch` returns every row
record in original order, each mapped to a Search Result with *no* score set
(the `score` field is left undefined — read as `0` by every consumer of
scores — rather than being set to `0`) and no match spans. -/
theorem runSearch_trivial_cases
    (data : List Row) (search : String → List FuseRes) (q : String)
    (h : q = "" ∨ splitTerms q = [] ∨ data = []) :
    runSearch data search q = data.map fun item =>
      { item := item, matches' := [], score := none } := by
  rcases h with h | h | h
  · rw [runSearch, if_pos (Or.inl h)]; rfl
  · by_cases hq : q = ""
    · rw [runSearch, if_pos (Or.inl hq)]; rfl
    · by_cases hd : data = []
      · rw [runSearch, if_pos (Or.inr hd)]; rfl
      · rw [runSearch, if_neg (by simp [hq, hd]), h]; rfl
  · rw [runSearch, if_pos (Or.inr h)]; rfl

/-- Witness for the amended C2 at a concrete input. -/
theorem runSearch_trivial_cases_witness :
    (("" : String) = "" ∨ splitTerms "" = [] ∨ ([[("N", Value.str "x")]] : List Row) = []) ∧
    runSearch [[("N", Value.str "x")]] (fun _ => []) "" =
      [[("N", Value.str "x")]].map fun item =>
        { item := item, matches' := [], score := none } :=
  ⟨Or.inl rfl, runSearch_trivial_cases _ _ _ (Or.inl rfl)⟩

/-- Counterexample to C2 as stated: at a concrete one-row record set and the
empty query, the produced Search Result carries no score at all
(`score = none`), not score `0`. -/
theorem runSearch_empty_query_score_counterexample :
    ¬ ∀ res ∈ runSearch [[("N", Value.str "x")]] (fun _ => []) "", res.score = some 0 := by
  intro h
  have hmem : ({ item := [("N", Value.str "x")], matches' := [], score := none } :
      SearchResult) ∈ runSearch [[("N", Value.str "x")]] (fun _ => []) "" := by
    rw [runSearch, if_pos (Or.inl rfl)]
    exact List.mem_singleton.mpr rfl
  exact Option.noConfusion (h _ hmem)

/-! ### Claim C4: result ordering -/

theorem filter_orderedInsert (s : ℚ) (a : SearchResult) (l : List SearchResult) :
    (List.orderedInsert resultLE a l).filter (fun res => decide (res.score.getD 0 = s)) =
      if a.score.getD 0 = s then
        a :: l.filter (fun res => decide (res.score.getD 0 = s))
      else l.filter (fun res => decide (res.score.getD 0 = s)) := by
  induction l with
  | nil => by_cases h : a.score.getD 0 = s <;> simp [List.orderedInsert, h]
  | cons b l ih =>
    rw [List.orderedInsert]
    by_cases hab : resultLE a b
    · rw [if_pos hab]
      by_cases h : a.score.getD 0 = s <;> simp [List.filter_cons, h]
    · rw [if_neg hab]
      by_cases h : a.score.getD 0 = s
      · have hbs : ¬(b.score.getD 0 = s) := by
          intro hb
          exact hab (le_of_eq (h.trans hb.symm))
        simp [List.filter_cons, hbs, ih, h]
      · simp [List.filter_cons, ih, h]

theorem filter_sortResults (s : ℚ) (l : List SearchResult) :
    (sortResults l).filter (fun res => decide (res.score.getD 0 = s)) =
      l.filter (fun res => decide (res.score.getD 0 = s)) := by
  rw [sortResults]
  induction l with
  | nil => rfl
  | cons a l ih =>
    rw [List.insertionSort, filter_orderedInsert]
    by_cases h : a.score.getD 0 = s
    · rw [if_pos h, ih, List.filter_cons, if_pos (by simp [h])]
    · rw [if_neg h, ih, List.filter_cons, if_neg (by simp [h])]

theorem sorted_identityResults (data : List Row) :
    List.Sorted resultLE (identityResults data) := by
  induction data with
  | nil => exact List.Pairwise.nil
  | cons r l ih =>
    refine List.Pairwise.cons (fun b hb => ?_) ih
    obtain ⟨item, -, rfl⟩ := List.mem_map.mp hb
    exact le_refl (0 : ℚ)

/-- **C4** (amended).  Every `runSearch` output is sorted ascending by
combined score (an absent score reads as `0`), and the sort is stable with
respect to the *pre-sort merged list* — whose order is the first term's
result-list order — not the original record order: for every score value,
the results carrying that score appear exactly as they do in the merged
list. -/
theorem runSearch_sorted_stable
    (data : List Row) (search : String → List FuseRes) (q : String) :
    List.Sorted resultLE (runSearch data search q) ∧
    ∀ t0 ts, splitTerms q = t0 :: ts → data ≠ [] → ∀ s : ℚ,
      (runSearch data search q).filter (fun res => decide (res.score.getD 0 = s)) =
        (mergedOf (termMapsOf search (t0 :: ts))).filter
          (fun res => decide (res.score.getD 0 = s)) := by
  constructor
  · rw [runSearch]
    split
    · exact sorted_identityResults data
    · split
      · exact sorted_identityResults data
      · exact List.sorted_insertionSort resultLE _
  · intro t0 ts hts hdata s
    have hq : q ≠ "" := by
      intro h
      rw [h] at hts
      exact List.noConfusion (splitTerms_nil_of_empty.symm.trans hts)
    rw [runSearch, if_neg (by simp [hq, hdata]), hts]
    exact filter_sortResults s _

/-- Witness for the amended C4 at a concrete input (the same fixture as the
counterexample below): the output is sorted, and its slice at the tied score
`2/10` equals the corresponding slice of the pre-sort merged list. -/
theorem runSearch_sorted_stable_witness :
    (splitTerms "a b" = ["a", "b"] ∧
      ([[("N", Value.str "r1")], [("N", Value.str "r2")]] : List Row) ≠ []) ∧
    List.Sorted resultLE (runSearch [[("N", Value.str "r1")], [("N", Value.str "r2")]]
      (fun t => if t = "a" then
          [⟨[("N", Value.str "r2")], some (1/10), []⟩,
           (⟨[("N", Value.str "r1")], some (3/10), []⟩ : FuseRes)]
        else
          [⟨[("N", Value.str "r1")], some (1/10), []⟩,
           (⟨[("N", Value.str "r2")], some (3/10), []⟩ : FuseRes)]) "a b") ∧
    (runSearch [[("N", Value.str "r1")], [("N", Value.str "r2")]]
        (fun t => if t = "a" then
            [⟨[("N", Value.str "r2")], some (1/10), []⟩,
             (⟨[("N", Value.str "r1")], some (3/10), []⟩ : FuseRes)]
          else
            [⟨[("N", Value.str "r1")], some (1/10), []⟩,
             (⟨[("N", Value.str "r2")], some (3/10), []⟩ : FuseRes)]) "a b").filter
        (fun res => decide (res.score.getD 0 = 2/10)) =
      (mergedOf (termMapsOf
          (fun t => if t = "a" then
            [⟨[("N", Value.str "r2")], some (1/10), []⟩,
             (⟨[("N", Value.str "r1")], some (3/10), []⟩ : FuseRes)]
          else
            [⟨[("N", Value.str "r1")], some (1/10), []⟩,
             (⟨[("N", Value.str "r2")], some (3/10), []⟩ : FuseRes)]) ["a", "b"])).filter
        (fun res => decide (res.score.getD 0 = 2/10)) :=
  ⟨⟨by decide, by decide⟩, (runSearch_sorted_stable _ _ _).1,
    (runSearch_sorted_stable _ _ _).2 "a" ["b"] (by decide) (by decide) (2/10)⟩

/-- The tie-breaking order asserted by claim C4: any two results with equal
combined score appear in the same relative order as their rows in the
original record set. -/
abbrev tiesFollowRecordOrder (data : List Row) (out : List SearchResult) : Prop :=
  out.Pairwise fun a b => a.score.getD 0 = b.score.getD 0 →
    data.indexOf a.item ≤ data.indexOf b.item

/-- Counterexample to C4 as stated, at a concrete input: both rows obtain
combined score `2/10`, yet the final results list them in the first term's
result order (`[r2, r1]`), not in the original record order (`[r1, r2]`). -/
theorem runSearch_tie_order_counterexample :
    ¬ tiesFollowRecordOrder [[("N", Value.str "r1")], [("N", Value.str "r2")]]
      (runSearch [[("N", Value.str "r1")], [("N", Value.str "r2")]]
        (fun t => if t = "a" then
            [⟨[("N", Value.str "r2")], some (1/10), []⟩,
             (⟨[("N", Value.str "r1")], some (3/10), []⟩ : FuseRes)]
          else
            [⟨[("N", Value.str "r1")], some (1/10), []⟩,
             (⟨[("N", Value.str "r2")], some (3/10), []⟩ : FuseRes)]) "a b") :=
  of_decide_eq_true (by with_unfolding_all rfl)


/-! ### Normalizer data model (SheetJS grid, `parseSheetByName`) -/

/-- A rectangular cell range (0-based, inclusive bounds), as
`XLSX.utils.decode_range` produces from a `!ref` string. -/
structure CellRange where
  sr : Nat
  sc : Nat
  er : Nat
  ec : Nat
deriving DecidableEq, Repr

/-- One grid cell: the formatted value `v` (if any) and the hyperlink target
carried by its `l` metadata (if any). -/
structure Cell where
  v : Option String
  l : Option String
deriving DecidableEq, Repr

/-- One sheet: the declared used-range `!ref` (if any), the sparse cell grid
addressed by (row, column), and the `!merges` region list. -/
structure Sheet where
  ref : Option CellRange
  cells : List ((Nat × Nat) × Cell)
  merges : List CellRange
deriving DecidableEq, Repr

/-- A workbook: `wb.Sheets`, keyed by sheet name. -/
abbrev Workbook := List (String × Sheet)

/-- The component state written by `parseSheetByName` (`setData`,
`setResults`, `setLinkMap`, `setColVisibility`). -/
structure AppState where
  data : List Row
  results : List SearchResult
  linkMap : List (Nat × List (String × String))
  colVisibility : List (String × Bool)
deriving DecidableEq, Repr

/-- Cell lookup at (row, column) — `sheet[XLSX.utils.encode_cell({r, c})]`. -/
def getCell (sheet : Sheet) (r c : Nat) : Option Cell :=
  assocGet sheet.cells (r, c)

/-- Modelled from the spec: `getHyperlinkFromCell` (in `src/lib/utils`, not
under `src/`) reads the hyperlink metadata carried by one cell — link
metadata lives on individual cells (§4.1); an absent cell carries none. -/
def getHyperlinkFromCell (cell : Option Cell) : Option String := cell.bind (·.l)

/-- The column indices of a range, `range.s.c .. range.e.c`. -/
def colIndices (range : CellRange) : List Nat :=
  List.range' range.sc (range.ec - range.sc + 1)

/-- The data-row indices of a range: rows strictly after the header row. -/
def dataRowIndices (range : CellRange) : List Nat :=
  List.range' (range.sr + 1) (range.er - range.sr)

/-- The header names `parseSheetByName` builds from the first row of the
range for link-map correlation: the header cell's value, or `__col${c}__`
when it is missing. -/
def appHeaders (sheet : Sheet) (range : CellRange) : List String :=
  (colIndices range).map fun c =>
    match (getCell sheet range.sr c).bind (·.v) with
    | some v => v
    | none => s!"__col{c}__"

/-- One link-map insertion:
`if (!lm.has(rowNum1)) lm.set(rowNum1, new Map()); lm.get(rowNum1)!.set(header, link)`. -/
def lmAdd (lm : List (Nat × List (String × String))) (row : Nat) (h target : String) :
    List (Nat × List (String × String)) :=
  match assocGet lm row with
  | some inner => assocSet lm row (assocSet inner h target)
  | none => lm ++ [(row, [(h, target)])]

/-- The hyperlink-collection loop of `parseSheetByName`: every data row and
column of the (unexpanded) grid, recording `(1-based row, header) → target`
for each cell carrying link metadata. -/
def extractLinks (sheet : Sheet) (range : CellRange) (headers : List String) :
    List (Nat × List (String × String)) :=
  (dataRowIndices range).foldl
    (fun lm r =>
      (colIndices range).foldl
        (fun lm c =>
          match getHyperlinkFromCell (getCell sheet r c) with
          | none => lm
          | some link => lmAdd lm (r + 1) (headers.getD (c - range.sc) "") link)
        lm)
    []

/-- Modelled from the spec: `getNonEmptyRowSet` (in `src/lib/utils`, not
under `src/`) — §4.1 `nonEmptyRowNumbers(grid)`: scans every row of the
declared used-range and returns the set of 1-based row numbers containing at
least one cell whose value is non-null and, for strings, non-whitespace-only. -/
def getNonEmptyRowSet (sheet : Sheet) : List Nat :=
  match sheet.ref with
  | none => []
  | some range =>
    ((List.range' range.sr (range.er - range.sr + 1)).filter fun r =>
      (colIndices range).any fun c =>
        match (getCell sheet r c).bind (·.v) with
        | some s => s.data.any fun ch => !ch.isWhitespace
        | none => false).map (· + 1)

/-- All cell addresses of a range. -/
def rangeAddrs (m : CellRange) : List (Nat × Nat) :=
  (List.range' m.sr (m.er - m.sr + 1)).flatMap fun r => (colIndices m).map fun c => (r, c)

/-- Writes a value into the cell at (r, c), creating the cell when absent. -/
def setCellValue (sheet : Sheet) (r c : Nat) (tv : String) : Sheet :=
  { sheet with cells :=
      match assocGet sheet.cells (r, c) with
      | some cell => assocSet sheet.cells (r, c) { cell with v := some tv }
      | none => sheet.cells ++ [((r, c), { v := some tv, l := none })] }

/-- Modelled from the spec: `expandMerges` (in `src/lib/utils`, not under
`src/`) — §4.1: for every declared merge region, copies the value of the
region's top-left cell into every other cell address of the region that
currently has no value.  The call site (`expandMerges(sheet)` with the
return value discarded, followed by `sheet_to_json(sheet)` observing the
expansion) forces the utility to update the passed sheet object in place;
the embedding threads the updated sheet explicitly instead. -/
def expandMerges (sheet : Sheet) : Sheet :=
  sheet.merges.foldl
    (fun sh m =>
      match (getCell sh m.sr m.sc).bind (·.v) with
      | none => sh
      | some tv =>
        (rangeAddrs m).foldl
          (fun sh rc =>
            if rc = (m.sr, m.sc) then sh
            else
              match (getCell sh rc.1 rc.2).bind (·.v) with
              | some _ => sh
              | none => setCellValue sh rc.1 rc.2 tv)
          sh)
    sheet

/-- The column headers `sheet_to_json` derives from the first row of the
range (documented SheetJS behaviour); a missing header cell receives a
synthetic placeholder (SheetJS uses `__EMPTY`-style names; the
uniqueness-suffix scheme is elided, no claim depending on the synthetic
text). -/
def jsonHeaders (sheet : Sheet) (range : CellRange) : List String :=
  (colIndices range).map fun c =>
    match (getCell sheet range.sr c).bind (·.v) with
    | some v => v
    | none => s!"__EMPTY_{c}__"

/-- `XLSX.utils.sheet_to_json(sheet, { defval: "", raw: false })` (external
library, embedded from its documented behaviour): one record per row after
the header row, keyed by the header names, every cell formatted as a string
and missing cells defaulting to `""`; each row carries its 0-based sheet row
index (the non-enumerable `__rowNum__`), returned here as the first
component.  (Whether blank rows are emitted is irrelevant downstream: the
keep-set filter removes them either way.) -/
def sheetToJson (sheet : Sheet) : List (Nat × Row) :=
  match sheet.ref with
  | none => []
  | some range =>
    (dataRowIndices range).map fun r =>
      (r, ((colIndices range).zip (jsonHeaders sheet range)).map fun p =>
        (p.2, Value.str (((getCell sheet r p.1).bind (·.v)).getD "")))

/-- JS object spread `{ ...a, ...b }`: the entries of `a` in order with
values overridden by `b` where present, then the entries of `b` on new keys. -/
def mergeObj (a b : List (String × Bool)) : List (String × Bool) :=
  b.foldl (fun m p => assocSet m p.1 p.2) a

/-- `parseSheetByName` (`src/App.tsx`, lines 92–158) as a state transformer:
the updated component state together with the workbook as the call leaves it
(the selected sheet having been merge-expanded in place).  The saved
column-visibility preferences (`getSavedColumns`, caller-owned persistent
storage per spec §6) enter as the parameter `saved`. -/
def parseSheetByName (wb : Workbook) (sheetName : String)
    (saved : List (String × Bool)) (st : AppState) : AppState × Workbook :=
  match assocGet wb sheetName with
  | none => (st, wb)
  | some sheet =>
    match sheet.ref with
    | none => (st, wb)
    | some range =>
      let headers := appHeaders sheet range
      let lm := extractLinks sheet range headers
      let keepRows := getNonEmptyRowSet sheet
      let sheet' := expandMerges sheet
      let rows := sheetToJson sheet'
      let filteredRows := rows.filter fun rp => keepRows.contains (rp.1 + 1)
      let finalRows := filteredRows.map fun rp =>
        rp.2 ++ [("__rowNum__", Value.num rp.1)]
      let cols := match finalRows with
        | [] => []
        | r :: _ => r.map Prod.fst
      let defaults := cols.map fun k => (k, decide (k ≠ "__rowNum__"))
      ({ data := finalRows
         results := finalRows.map fun item => { item := item, matches' := [], score := none }
         linkMap := lm
         colVisibility := mergeObj defaults saved },
        assocSet wb sheetName sheet')

/-- Modelled from the spec: `hasContent` (in `src/lib/utils`, not under
`src/`) — a value counts as content when it is non-null and, for strings,
non-whitespace-only (the content notion of §4.1). -/
def hasContent (v : Option Value) : Bool :=
  match v with
  | none => false
  | some (Value.str s) => s.data.any fun ch => !ch.isWhitespace
  | some (Value.num _) => true

/-- `columns` (`src/App.tsx`, line 234): `data.length ? Object.keys(data[0]) : []`. -/
def columns (data : List Row) : List String :=
  match data with
  | [] => []
  | r :: _ => r.map Prod.fst

/-- The searchable key list handed to the fuzzy primitive:
`new Fuse(data, { keys: columns, ... })` (`src/App.tsx`, lines 236–249). -/
def fuseKeys (data : List Row) : List String := columns data

/-- `visibleColumns` (`src/App.tsx`, lines 82–89): the displayed column set —
all keys of the first record except `__rowNum__`, restricted to columns with
content in some result and not toggled off. -/
def visibleColumns (data : List Row) (results : List SearchResult)
    (colVisibility : List (String × Bool)) : List String :=
  if results = [] then []
  else
    (((columns data).filter fun k => k ≠ "__rowNum__").filter fun k =>
      results.any fun r => hasContent (assocGet r.item k)).filter fun k =>
      assocGet colVisibility k ≠ some false

/-! ### The highlighter (`highlightText`) -/

/-- One output fragment of the highlighter: an unmarked run of text or a
`<mark>`-wrapped one. -/
inductive Part where
  | plain (s : List Char)
  | mark (s : List Char)
deriving DecidableEq, Repr

/-- JS `text.slice(start, end)` for non-negative indices (clamping past the
end of the string). -/
def jsSlice (l : List Char) (a b : Nat) : List Char := (l.take b).drop a

/-- The highlight loop: for each inclusive `[start, end]` pair, pushes the
unmarked gap `text.slice(last, start)` and the marked
`text.slice(start, end + 1)`; after the loop, the tail `text.slice(last)`. -/
def hlLoop (text : List Char) (last : Nat) : List (Nat × Nat) → List Part
  | [] => [Part.plain (jsSlice text last text.length)]
  | (s, e) :: rest =>
    Part.plain (jsSlice text last s) :: Part.mark (jsSlice text s (e + 1)) ::
      hlLoop text (e + 1) rest

/-- `highlightText` (`src/App.tsx`, lines 212–231), the React fragments
abstracted as `Part`s: the unsplit text when there are no matches, no match
for the requested key, or no indices; otherwise the text split around the
inclusive spans of the first match whose key equals the requested column. -/
def highlightText (text : List Char) (matchList : List FuseResultMatch)
    (key : String) : List Part :=
  if matchList = [] then [Part.plain text]
  else
    match matchList.find? fun mm => decide (mm.key = some key) with
    | none => [Part.plain text]
    | some m => if m.indices = [] then [Part.plain text] else hlLoop text 0 m.indices

/-- The characters of one fragment. -/
def partChars : Part → List Char
  | .plain s => s
  | .mark s => s

/-- Concatenation of the fragments back into one string. -/
def joinParts (ps : List Part) : List Char := ps.foldr (fun p acc => partChars p ++ acc) []

/-- The marked fragments, in order. -/
def markTexts (ps : List Part) : List (List Char) :=
  ps.filterMap fun p =>
    match p with
    | .mark s => some s
    | .plain _ => none

/-- The index pairs `highlightText` iterates over: those of the first match
carrying the requested key (empty when there is none). -/
def foundIndices (matchList : List FuseResultMatch) (key : String) : List (Nat × Nat) :=
  match matchList.find? fun mm => decide (mm.key = some key) with
  | none => []
  | some m => m.indices

/-! ### Claim C10: the highlighter splits the text losslessly -/

theorem jsSlice_append (l : List Char) {a b c : Nat} (hab : a ≤ b) (hbc : b ≤ c)
    (hal : a ≤ l.length) :
    jsSlice l a b ++ jsSlice l b c = jsSlice l a c := by
  have htake : l.take b = (l.take c).take b := by
    rw [List.take_take, min_eq_left hbc]
  have hsplit : (l.take c).take b ++ (l.take c).drop b = l.take c :=
    List.take_append_drop b (l.take c)
  have hlen : a ≤ ((l.take c).take b).length := by
    simp only [List.length_take]
    omega
  calc jsSlice l a b ++ jsSlice l b c
      = ((l.take c).take b).drop a ++ (l.take c).drop b := by
        rw [jsSlice, jsSlice, htake]
    _ = (((l.take c).take b) ++ (l.take c).drop b).drop a :=
        (List.drop_append_of_le_length hlen).symm
    _ = jsSlice l a c := by rw [hsplit, jsSlice]

theorem hlLoop_spec (text : List Char) :
    ∀ (idx : List (Nat × Nat)) (last : Nat),
      (∀ p ∈ idx, p.1 ≤ p.2 ∧ p.2 < text.length) →
      idx.Chain' (fun p q => p.2 < q.1) →
      (∀ p ∈ idx.head?, last ≤ p.1) →
      last ≤ text.length →
      joinParts (hlLoop text last idx) = jsSlice text last text.length ∧
      markTexts (hlLoop text last idx) = idx.map fun p => jsSlice text p.1 (p.2 + 1) := by
  intro idx
  induction idx with
  | nil =>
    intro last _ _ _ _
    constructor
    · simp [hlLoop, joinParts, partChars]
    · simp [hlLoop, markTexts]
  | cons p rest ih =>
    obtain ⟨s, e⟩ := p
    intro last hb hc hhead hlast
    have hse : s ≤ e := (hb (s, e) (List.mem_cons_self _ _)).1
    have helen : e < text.length := (hb (s, e) (List.mem_cons_self _ _)).2
    have hlast_s : last ≤ s := hhead (s, e) rfl
    have hchain := List.chain'_cons'.mp hc
    obtain ⟨hnext, hcrest⟩ := hchain
    have ihr := ih (e + 1) (fun p hp => hb p (List.mem_cons_of_mem _ hp)) hcrest
      (fun p hp => hnext p hp) (by omega)
    obtain ⟨ihjoin, ihmarks⟩ := ihr
    constructor
    · show jsSlice text last s ++ (jsSlice text s (e + 1) ++
        joinParts (hlLoop text (e + 1) rest)) = jsSlice text last text.length
      rw [ihjoin]
      rw [jsSlice_append text (by omega) (by omega) (by omega),
        jsSlice_append text (by omega) (by omega) (by omega)]
    · show jsSlice text s (e + 1) :: markTexts (hlLoop text (e + 1) rest) = _
      rw [ihmarks, List.map_cons]

/-- **C10**.  For every text and matches whose relevant index pairs (the
spans of the first match carrying the requested column key) are sorted,
non-overlapping and within the text's bounds, the parts `highlightText`
produces concatenate back to exactly the input text, and the marked parts
are exactly the inclusive substrings from offset `start` to offset `end` of
the text, in order. -/
theorem highlightText_round_trip (text : List Char)
    (matchList : List FuseResultMatch) (key : String)
    (hb : ∀ p ∈ foundIndices matchList key, p.1 ≤ p.2 ∧ p.2 < text.length)
    (hc : (foundIndices matchList key).Chain' fun p q => p.2 < q.1) :
    joinParts (highlightText text matchList key) = text ∧
    markTexts (highlightText text matchList key) =
      (foundIndices matchList key).map fun p => jsSlice text p.1 (p.2 + 1) := by
  have hplain : joinParts [Part.plain text] = text := by
    simp [joinParts, partChars]
  rw [highlightText]
  by_cases hnil : matchList = []
  · rw [if_pos hnil]
    refine ⟨hplain, ?_⟩
    rw [foundIndices, hnil]
    simp [markTexts]
  · rw [if_neg hnil]
    rw [foundIndices] at hb hc ⊢
    cases hfind : matchList.find? fun mm => decide (mm.key = some key) with
    | none =>
      refine ⟨hplain, ?_⟩
      show markTexts [Part.plain text] = List.map _ ([] : List (Nat × Nat))
      simp [markTexts]
    | some m =>
      rw [hfind] at hb hc
      have hb' : ∀ p ∈ m.indices, p.1 ≤ p.2 ∧ p.2 < text.length := hb
      have hc' : m.indices.Chain' (fun p q => p.2 < q.1) := hc
      show joinParts (if m.indices = [] then [Part.plain text]
          else hlLoop text 0 m.indices) = text ∧
        markTexts (if m.indices = [] then [Part.plain text]
          else hlLoop text 0 m.indices) =
          m.indices.map fun p => jsSlice text p.1 (p.2 + 1)
      by_cases hidx : m.indices = []
      · rw [if_pos hidx, hidx]
        exact ⟨hplain, by simp [markTexts]⟩
      · rw [if_neg hidx]
        have hspec := hlLoop_spec text m.indices 0 hb' hc' (fun p _ => Nat.zero_le _)
          (Nat.zero_le _)
        obtain ⟨hjoin, hmarks⟩ := hspec
        refine ⟨?_, hmarks⟩
        rw [hjoin, jsSlice, List.take_length, List.drop_zero]

/-- Witness for C10 at a concrete input: text `"abcdef"`, one match on key
`"N"` with spans `[1,2]` and `[4,4]`; the parts rebuild the text and the
marks are `"bc"` and `"e"`. -/
theorem highlightText_round_trip_witness :
    ((∀ p ∈ foundIndices [⟨some "N", [(1, 2), (4, 4)]⟩] "N",
        p.1 ≤ p.2 ∧ p.2 < ("abcdef".data).length) ∧
      List.Chain' (fun p q => p.2 < q.1)
        (foundIndices [⟨some "N", [(1, 2), (4, 4)]⟩] "N")) ∧
    (joinParts (highlightText "abcdef".data [⟨some "N", [(1, 2), (4, 4)]⟩] "N") =
        "abcdef".data ∧
      markTexts (highlightText "abcdef".data [⟨some "N", [(1, 2), (4, 4)]⟩] "N") =
        (foundIndices [⟨some "N", [(1, 2), (4, 4)]⟩] "N").map fun p =>
          jsSlice "abcdef".data p.1 (p.2 + 1)) :=
  ⟨⟨by decide, by
      rw [show foundIndices [⟨some "N", [(1, 2), (4, 4)]⟩] "N" = [(1, 2), (4, 4)] from rfl]
      simp [List.chain'_cons]⟩,
    highlightText_round_trip _ _ _ (by decide) (by
      rw [show foundIndices [⟨some "N", [(1, 2), (4, 4)]⟩] "N" = [(1, 2), (4, 4)] from rfl]
      simp [List.chain'_cons])⟩

/-! ### Normalizer claims C5–C8 -/

/-- Demo fixture: header row `H1 H2`, one content row, one blank spacer row
covered by a vertical merge whose top-left cell holds a value — expansion
makes the spacer row non-empty, so computing the keep-set after expansion
would differ from computing it before. -/
def demoMergeSheet : Sheet :=
  { ref := some { sr := 0, sc := 0, er := 2, ec := 1 }
    cells := [((0, 0), { v := some "H1", l := none }),
              ((0, 1), { v := some "H2", l := none }),
              ((1, 0), { v := some "a", l := none })]
    merges := [{ sr := 1, sc := 0, er := 2, ec := 0 }] }

/-- A one-sheet demo workbook. -/
def demoWb : Workbook := [("S", demoMergeSheet)]

/-- The initial component state (all four pieces empty). -/
def emptyAppState : AppState :=
  { data := [], results := [], linkMap := [], colVisibility := [] }

/-- A state holding a previously loaded record set and link map. -/
def loadedAppState : AppState :=
  { data := [[("N", Value.str "x")]]
    results := []
    linkMap := [(2, [("N", "mailto:a@b.c")])]
    colVisibility := [] }

/-- A workbook whose only sheet declares no used-range. -/
def noRefWb : Workbook := [("S", { ref := none, cells := [], merges := [] })]

/-- **C5**.  `parseSheetByName` performs its steps in the required order:
the link map it stores is the hyperlink extraction over the *unexpanded*
grid, and the records it stores are built from the merge-*expanded* grid
restricted to the keep-set of the *unexpanded* grid — so neither link
extraction nor spacer-row detection ever observes merge-filled cell values.
The final conjunct exhibits that the order is observable: on
`demoMergeSheet` the keep-set computed after expansion differs (the
merge-covered spacer row would be retained). -/
theorem parseSheetByName_pipeline_order
    (wb : Workbook) (sheetName : String) (saved : List (String × Bool)) (st : AppState)
    (sheet : Sheet) (range : CellRange)
    (hsheet : assocGet wb sheetName = some sheet) (href : sheet.ref = some range) :
    ((parseSheetByName wb sheetName saved st).1.linkMap =
        extractLinks sheet range (appHeaders sheet range) ∧
      (parseSheetByName wb sheetName saved st).1.data =
        ((sheetToJson (expandMerges sheet)).filter fun rp =>
          (getNonEmptyRowSet sheet).contains (rp.1 + 1)).map fun rp =>
          rp.2 ++ [("__rowNum__", Value.num rp.1)]) ∧
    getNonEmptyRowSet demoMergeSheet ≠ getNonEmptyRowSet (expandMerges demoMergeSheet) := by
  refine ⟨⟨?_, ?_⟩, by decide⟩
  · simp only [parseSheetByName, hsheet, href]
  · simp only [parseSheetByName, hsheet, href]

/-- Witness for C5 at the concrete demo workbook. -/
theorem parseSheetByName_pipeline_order_witness :
    (assocGet demoWb "S" = some demoMergeSheet ∧
      demoMergeSheet.ref = some { sr := 0, sc := 0, er := 2, ec := 1 }) ∧
    (((parseSheetByName demoWb "S" [] emptyAppState).1.linkMap =
        extractLinks demoMergeSheet { sr := 0, sc := 0, er := 2, ec := 1 }
          (appHeaders demoMergeSheet { sr := 0, sc := 0, er := 2, ec := 1 }) ∧
      (parseSheetByName demoWb "S" [] emptyAppState).1.data =
        ((sheetToJson (expandMerges demoMergeSheet)).filter fun rp =>
          (getNonEmptyRowSet demoMergeSheet).contains (rp.1 + 1)).map fun rp =>
          rp.2 ++ [("__rowNum__", Value.num rp.1)]) ∧
    getNonEmptyRowSet demoMergeSheet ≠ getNonEmptyRowSet (expandMerges demoMergeSheet)) :=
  ⟨⟨rfl, rfl⟩,
    parseSheetByName_pipeline_order demoWb "S" [] emptyAppState demoMergeSheet _ rfl rfl⟩

/-- **C6** (amended).  A sheet with no declared used-range makes
`parseSheetByName` return early without error, leaving the previous state —
record set, link map, everything — and the workbook exactly unchanged; its
outputs are therefore empty only when nothing was loaded before (a fresh
empty state stays empty), not unconditionally. -/
theorem parseSheetByName_no_ref_unchanged
    (wb : Workbook) (sheetName : String) (saved : List (String × Bool)) (st : AppState)
    (sheet : Sheet)
    (hsheet : assocGet wb sheetName = some sheet) (href : sheet.ref = none) :
    parseSheetByName wb sheetName saved st = (st, wb) := by
  simp only [parseSheetByName, hsheet, href]

/-- Witness for the amended C6 at a concrete no-used-range workbook and a
previously loaded state. -/
theorem parseSheetByName_no_ref_unchanged_witness :
    (assocGet noRefWb "S" = some { ref := none, cells := [], merges := [] } ∧
      ({ ref := none, cells := [], merges := [] } : Sheet).ref = none) ∧
    parseSheetByName noRefWb "S" [] loadedAppState = (loadedAppState, noRefWb) :=
  ⟨⟨rfl, rfl⟩,
    parseSheetByName_no_ref_unchanged noRefWb "S" [] loadedAppState _ rfl rfl⟩

/-- Counterexample to C6 as stated: on a concrete sheet with no declared
used-range and a state holding a previously loaded record set, the entry
point leaves the record set and the link map non-empty — it does not yield
an empty record set and an empty link map. -/
theorem parseSheetByName_no_ref_counterexample :
    (parseSheetByName noRefWb "S" [] loadedAppState).1.data ≠ [] ∧
    (parseSheetByName noRefWb "S" [] loadedAppState).1.linkMap ≠ [] :=
  ⟨by decide, by decide⟩

/-- **C7** (amended).  Merge-fill operates on the caller's sheet object, not
on a working copy: after `parseSheetByName`, the caller's workbook holds the
merge-expanded sheet in place of the original — the caller's grid is
unchanged only when the expansion is a no-op. -/
theorem parseSheetByName_expands_in_place
    (wb : Workbook) (sheetName : String) (saved : List (String × Bool)) (st : AppState)
    (sheet : Sheet) (range : CellRange)
    (hsheet : assocGet wb sheetName = some sheet) (href : sheet.ref = some range) :
    (parseSheetByName wb sheetName saved st).2 =
      assocSet wb sheetName (expandMerges sheet) := by
  simp only [parseSheetByName, hsheet, href]

/-- Witness for the amended C7 at the concrete demo workbook. -/
theorem parseSheetByName_expands_in_place_witness :
    (assocGet demoWb "S" = some demoMergeSheet ∧
      demoMergeSheet.ref = some { sr := 0, sc := 0, er := 2, ec := 1 }) ∧
    (parseSheetByName demoWb "S" [] emptyAppState).2 =
      assocSet demoWb "S" (expandMerges demoMergeSheet) :=
  ⟨⟨rfl, rfl⟩,
    parseSheetByName_expands_in_place demoWb "S" [] emptyAppState demoMergeSheet _ rfl rfl⟩

/-- Counterexample to C7 as stated: after running the whole-sheet entry point
on `demoWb`, the caller's workbook grid is *changed* — the blank cell inside
the merge region now carries the top-left value. -/
theorem parseSheetByName_mutation_counterexample :
    (parseSheetByName demoWb "S" [] emptyAppState).2 ≠ demoWb := by decide

/-- **C8** (amended).  The implicit `__rowNum__` field is never part of the
displayed column set — `visibleColumns` filters it unconditionally — but it
*is* among the searchable keys supplied to the fuzzy primitive: the Fuse key
list is `Object.keys` of the first record, and every record produced by
`parseSheetByName` carries the re-attached enumerable `__rowNum__` as its
last key. -/
theorem rowNum_hidden_but_searchable
    (wb : Workbook) (sheetName : String) (saved : List (String × Bool)) (st : AppState)
    (sheet : Sheet) (range : CellRange)
    (hsheet : assocGet wb sheetName = some sheet) (href : sheet.ref = some range) :
    (∀ (data : List Row) (results : List SearchResult) (cv : List (String × Bool)),
      "__rowNum__" ∉ visibleColumns data results cv) ∧
    ((parseSheetByName wb sheetName saved st).1.data ≠ [] →
      "__rowNum__" ∈ fuseKeys ((parseSheetByName wb sheetName saved st).1.data)) := by
  constructor
  · intro data results cv hmem
    rw [visibleColumns] at hmem
    by_cases hres : results = []
    · rw [if_pos hres] at hmem
      exact List.not_mem_nil _ hmem
    · rw [if_neg hres] at hmem
      have h1 := List.mem_filter.mp hmem
      have h2 := List.mem_filter.mp h1.1
      have h3 := List.mem_filter.mp h2.1
      simp at h3
  · intro hne
    have hdata : (parseSheetByName wb sheetName saved st).1.data =
        ((sheetToJson (expandMerges sheet)).filter fun rp =>
          (getNonEmptyRowSet sheet).contains (rp.1 + 1)).map fun rp =>
          rp.2 ++ [("__rowNum__", Value.num rp.1)] := by
      simp only [parseSheetByName, hsheet, href]
    rw [hdata] at hne ⊢
    cases hl : (sheetToJson (expandMerges sheet)).filter fun rp =>
        (getNonEmptyRowSet sheet).contains (rp.1 + 1) with
    | nil => rw [hl] at hne; exact absurd rfl hne
    | cons rp rest =>
      rw [List.map_cons]
      show "__rowNum__" ∈
        ((rp.2 ++ [("__rowNum__", Value.num rp.1)]).map Prod.fst)
      rw [List.map_append]
      exact List.mem_append.mpr (Or.inr (by simp))

/-- Witness for the amended C8 at the concrete demo workbook (whose parse
yields one record). -/
theorem rowNum_hidden_but_searchable_witness :
    (assocGet demoWb "S" = some demoMergeSheet ∧
      demoMergeSheet.ref = some { sr := 0, sc := 0, er := 2, ec := 1 } ∧
      (parseSheetByName demoWb "S" [] emptyAppState).1.data ≠ []) ∧
    "__rowNum__" ∈ fuseKeys ((parseSheetByName demoWb "S" [] emptyAppState).1.data) :=
  ⟨⟨rfl, rfl, by decide⟩,
    (rowNum_hidden_but_searchable demoWb "S" [] emptyAppState demoMergeSheet _
      rfl rfl).2 (by decide)⟩

/-- Counterexample to C8 as stated: at the concrete demo workbook, the
searchable key list handed to the fuzzy primitive *does* contain
`__rowNum__`. -/
theorem rowNum_searchable_counterexample :
    "__rowNum__" ∈ fuseKeys ((parseSheetByName demoWb "S" [] emptyAppState).1.data) := by
  decide

end SpreadsheetSearch
